import Mathlib

/-!
Verification of the madisonlogic matching system's fuzzy matching and
ranking engine.  Python strings are modelled as `List Char`; values that
may be missing (`None`/`NaN`) or non-string are modelled with `Option`.
Python's float scores are modelled in `ℚ` (all reachable values here are
half-integers, on which float arithmetic is exact).  The tiered search
backend is modelled by an `Except` result per issued tier query.
-/

/-! ## Character model (Python `str` methods restricted to the use here) -/

/-- Python `str.strip()` whitespace test, restricted to the ASCII range
(all non-ASCII characters are deleted before any strip that matters). -/
def pyIsSpace (c : Char) : Bool :=
  c = ' ' || c = '\t' || c = '\n' || c = Char.ofNat 11 || c = Char.ofNat 12 ||
  c = '\r' || c = Char.ofNat 28 || c = Char.ofNat 29 || c = Char.ofNat 30 ||
  c = Char.ofNat 31

/-- Python `str.lower()` on one character, restricted to ASCII letters
(identity elsewhere, as Python is on the ASCII-only texts reached here). -/
def pyToLower (c : Char) : Char :=
  if 65 ≤ c.toNat ∧ c.toNat ≤ 90 then Char.ofNat (c.toNat + 32) else c

/-- Python `str.upper()` on one character, restricted to ASCII letters. -/
def pyToUpper (c : Char) : Char :=
  if 97 ≤ c.toNat ∧ c.toNat ≤ 122 then Char.ofNat (c.toNat - 32) else c

/-- Python `text.encode('ascii', errors='ignore').decode('ascii')`:
delete every character outside the 7-bit ASCII range. -/
def asciiOnly (s : List Char) : List Char :=
  s.filter (fun c => c.toNat < 128)

/-- Python `text.lower()`. -/
def lowerStr (s : List Char) : List Char :=
  s.map pyToLower

/-- Python `text.upper()`. -/
def upperStr (s : List Char) : List Char :=
  s.map pyToUpper

/-- Python `text.strip()`: remove leading and trailing whitespace. -/
def pyStrip (s : List Char) : List Char :=
  (((s.dropWhile pyIsSpace).reverse.dropWhile pyIsSpace)).reverse

/-- Python `needle in hay` (substring containment). -/
def containsSub (needle : List Char) (hay : List Char) : Bool :=
  match hay with
  | [] => needle.isEmpty
  | _ :: rest => needle.isPrefixOf hay || containsSub needle rest

/-! ## Text normalizer

`clean_text_basic` from `data_preprocessing.py` (the identical copy in
`pipeline_s3_to_meili.py` shares this definition): encode-ascii-ignore,
then `.lower().strip()`. -/

def clean_text_basic (s : List Char) : List Char :=
  pyStrip (lowerStr (asciiOnly s))

/-- `clean_text_basic` on a possibly non-string value (`None`, `NaN`, a
number): `if not isinstance(text, str): return ""`. -/
def clean_text_basicOpt : Option (List Char) → List Char
  | none => []
  | some s => clean_text_basic s

/-- `clean_text` from `lambda_search_engine.py`: `if not text: return ""`,
then `.lower().strip()`, then encode-ascii-ignore (the reverse order of
`clean_text_basic`'s steps). -/
def clean_text (s : List Char) : List Char :=
  if s = [] then [] else asciiOnly (pyStrip (lowerStr s))

/-! ## Prefix n-gram generator

`get_ngrams` from `data_preprocessing.py` / `pipeline_s3_to_meili.py`. -/

def get_ngrams (s : List Char) (min_len max_len : Nat) : List (List Char) :=
  if s = [] then []
  else
    let t := clean_text_basic s
    if t.length < min_len then [t]
    else (List.range' min_len (min (t.length + 1) (max_len + 1) - min_len)).map
      (fun i => t.take i)

/-- `get_ngrams` on a possibly non-string value:
`if not text or not isinstance(text, str): return []`. -/
def get_ngramsOpt (v : Option (List Char)) (min_len max_len : Nat) : List (List Char) :=
  match v with
  | none => []
  | some s => get_ngrams s min_len max_len

/-! ## Phonetic encoder -/

/-- `re.sub(r'[AEIOUY]', '', remainder)`: delete vowels and Y. -/
def removeVowels (s : List Char) : List Char :=
  s.filter (fun c => !((['A', 'E', 'I', 'O', 'U', 'Y'] : List Char).contains c))

/-- One character under `re.sub(r'[..class..]', digit, ...)`: replaced by
the digit when it is in the class, kept otherwise. -/
def subChar (cls : List Char) (d : Char) (c : Char) : Char :=
  if cls.contains c then d else c

/-- One `re.sub(r'[..class..]', digit, s)` step: a character class replaced
by a single digit character. -/
def subMap (cls : List Char) (d : Char) (s : List Char) : List Char :=
  s.map (subChar cls d)

/-- The six consonant-class substitutions of the source, applied in the
source's order. -/
def phoneticRemainder (rest : List Char) : List Char :=
  subMap ['R'] '6'
    (subMap ['M', 'N'] '5'
      (subMap ['L'] '4'
        (subMap ['D', 'T'] '3'
          (subMap ['C', 'G', 'J', 'K', 'Q', 'S', 'X', 'Z'] '2'
            (subMap ['B', 'F', 'P', 'V'] '1' (removeVowels rest))))))

/-- The source's adjacent-duplicate squeeze loop (`last_char = ""`,
`for char in remainder: if char != last_char: reduced += char; ...`),
with the running `last_char` made explicit. -/
def squeezeAux (last : Option Char) : List Char → List Char
  | [] => []
  | c :: rest =>
    if some c = last then squeezeAux (some c) rest
    else c :: squeezeAux (some c) rest

def squeezeLoop (s : List Char) : List Char :=
  squeezeAux none s

/-- `simple_phonetic` from `data_preprocessing.py` (the copy in
`pipeline_s3_to_meili.py` is line-for-line the same logic). -/
def simple_phonetic (s : List Char) : List Char :=
  if s = [] then []
  else
    match upperStr (clean_text_basic s) with
    | [] => []
    | first :: rest => first :: squeezeLoop (phoneticRemainder rest)

/-- `simple_phonetic` on a possibly non-string value. -/
def simple_phoneticOpt : Option (List Char) → List Char
  | none => []
  | some s => simple_phonetic s

/-- `get_phonetic` from `lambda_search_engine.py`: identical steps except
that it normalizes with `clean_text` instead of `clean_text_basic`. -/
def get_phonetic (s : List Char) : List Char :=
  if s = [] then []
  else
    match upperStr (clean_text s) with
    | [] => []
    | first :: rest => first :: squeezeLoop (phoneticRemainder rest)

/-! ## Quality scorer and source rank -/

/-- One reference record's fields used by the scorers.  `none` models a
missing value (`None`/`NaN`); `pd.notna` is `Option.isSome`. -/
structure Row where
  SOURCE : Option (List Char)
  EMPLOYEE_COUNT : Option Int
  INDUSTRY_CAT_STD : Option (List Char)
  COUNTRY : Option (List Char)
  SIZE_DESC_STD : Option (List Char)
  LAST_SEEN_DATE : Option (List Char)
  DATE_LAST_VERIFIED : Option (List Char)

/-- The source-priority term shared by both scorers:
`str(row.get('SOURCE', '')).upper()` then the PDL/BOMBORA/HGDATA chain.
(`str(None)`/`str(nan)` uppercase to "NONE"/"NAN", which contain none of
the three tags, so `none ↦ 0` is faithful.) -/
def sourceBonus (source : Option (List Char)) : Nat :=
  let src := upperStr (source.getD [])
  if containsSub (("PDL").toList) src then 20
  else if containsSub (("BOMBORA").toList) src then 15
  else if containsSub (("HGDATA").toList) src then 10
  else 0

/-- `calc_quality_score` from `data_preprocessing.py`: the recency term
fires on `LAST_SEEN_DATE` **or** `DATE_LAST_VERIFIED`. -/
def calc_quality_score (row : Row) : Nat :=
  sourceBonus row.SOURCE
  + (match row.EMPLOYEE_COUNT with
     | some n => if n > 0 then 10 else 0
     | none => 0)
  + (if row.INDUSTRY_CAT_STD.isSome then 5 else 0)
  + (if row.COUNTRY.isSome then 2 else 0)
  + (if row.SIZE_DESC_STD.isSome then 3 else 0)
  + (if row.LAST_SEEN_DATE.isSome || row.DATE_LAST_VERIFIED.isSome then 5 else 0)

/-- `calc_quality_score` from `pipeline_s3_to_meili.py`: identical except
that the recency term checks only `LAST_SEEN_DATE`. -/
def calc_quality_score_pipeline (row : Row) : Nat :=
  sourceBonus row.SOURCE
  + (match row.EMPLOYEE_COUNT with
     | some n => if n > 0 then 10 else 0
     | none => 0)
  + (if row.INDUSTRY_CAT_STD.isSome then 5 else 0)
  + (if row.COUNTRY.isSome then 2 else 0)
  + (if row.SIZE_DESC_STD.isSome then 3 else 0)
  + (if row.LAST_SEEN_DATE.isSome then 5 else 0)

/-- `get_source_rank` from `data_preprocessing.py`; `none` models a
non-string source (`if not isinstance(source, str): return 99`). -/
def get_source_rank (source : Option (List Char)) : Nat :=
  match source with
  | none => 99
  | some s =>
    let src := upperStr s
    if containsSub (("PDL").toList) src then 1
    else if containsSub (("BOMBORA").toList) src then 2
    else if containsSub (("HGDATA").toList) src then 3
    else 4

/-! ## Tiered search orchestrator and candidate aggregator
(`lambda_search_engine.py`, `CompanySearchEngine.search_company`) -/

/-- The reduced projection of an index document a tier hit carries
(`attributes_to_retrieve`).  A missing field is `none`; the quality score
in the index is produced by `calc_quality_score`, hence a `Nat`. -/
structure Hit where
  DOMAIN_NAME : Option (List Char)
  company_name_cleaned_ascii : Option (List Char)
  EMPLOYEE_COUNT : Option Int
  metadata_quality_score : Option Nat

def tier1Name : List Char := ("Tier 1 (Exact)").toList
def tier2Name : List Char := ("Tier 2 (Domain Exact)").toList
def tier3Name : List Char := ("Tier 3 (Typo)").toList
def tier4Name : List Char := ("Tier 4 (Phonetic)").toList
def tier5Name : List Char := ("Tier 5 (N-gram)").toList
def tier7Name : List Char := ("Tier 7 (Alt Names)").toList

/-- The tier-base-score chain of `search_company` (`if "Tier 1" in tier:
score = 95` ...), checked in the source's order. -/
def tierBaseScore (tier : List Char) : ℚ :=
  if containsSub (("Tier 1").toList) tier then 95
  else if containsSub (("Tier 2").toList) tier then 90
  else if containsSub (("Tier 7").toList) tier then 88
  else if containsSub (("Tier 3").toList) tier then 80
  else if containsSub (("Tier 4").toList) tier then 75
  else if containsSub (("Tier 5").toList) tier then 70
  else 0

/-- The size boost: `emps = hit.get('EMPLOYEE_COUNT', 0) or 0`, then
`+10` above 10000 else `+5` above 1000. -/
def sizeBoost (h : Hit) : ℚ :=
  let emps := h.EMPLOYEE_COUNT.getD 0
  if emps > 10000 then 10 else if emps > 1000 then 5 else 0

/-- The confidence computed for a newly seen candidate:
`score = tierBase; score += quality / 2; size boost; min(score, 100)`.
Python's `/` is true division, modelled exactly in `ℚ`. -/
def hitScore (tier : List Char) (h : Hit) : ℚ :=
  let score := tierBaseScore tier
  let score := score + (h.metadata_quality_score.getD 0 : ℚ) / 2
  let score := score + sizeBoost h
  min score 100

/-- One aggregated candidate (`all_candidates[domain]` together with the
`_match_tier` / `_match_score` tags the code stores on the hit). -/
structure Candidate where
  domain : List Char
  tier : List Char
  name : Option (List Char)
  score : ℚ

/-- `domain = hit.get('DOMAIN_NAME'); if not domain: continue` — a missing
or empty domain is skipped. -/
def hitDomain (h : Hit) : Option (List Char) :=
  match h.DOMAIN_NAME with
  | none => none
  | some d => if d = [] then none else some d

/-- Processing one hit of one tier against the running candidate map:
first occurrence of a domain wins, later hits for a seen domain are
discarded.  (The Python dict preserves insertion order, modelled by
appending.) -/
def insertHit (acc : List Candidate) (tier : List Char) (h : Hit) : List Candidate :=
  match hitDomain h with
  | none => acc
  | some d =>
    if acc.any (fun c => c.domain == d) then acc
    else acc ++ [⟨d, tier, h.company_name_cleaned_ascii, hitScore tier h⟩]

/-- The aggregation loop `for tier_hits in results_list: for hit in
tier_hits: ...` of `search_company`. -/
def aggregate (tiers : List (List Char × List Hit)) : List Candidate :=
  tiers.foldl (fun acc p => p.2.foldl (fun a h => insertHit a p.1 h) acc) []

/-- Stable insertion for a descending sort by score: equal scores keep
their first-inserted order, exactly like Python's stable
`sorted(..., key=score, reverse=True)`. -/
def insertDesc (c : Candidate) : List Candidate → List Candidate
  | [] => [c]
  | d :: rest => if c.score > d.score then c :: d :: rest else d :: insertDesc c rest

def sortCandidates (l : List Candidate) : List Candidate :=
  l.foldl (fun acc c => insertDesc c acc) []

/-- The dictionary returned by `search_company` (for the not-found case the
absent keys are `none` / `0`). -/
structure MatchResult where
  input_name : List Char
  match_found : Bool
  domain : Option (List Char)
  company_name : Option (List Char)
  tier : Option (List Char)
  confidence : ℚ
  candidates_found : Nat

/-- The backend's answer to each of the six tier queries issued by
`search_company`: either a hit list or a raised error (message). -/
structure TierResponses where
  t1 : Except (List Char) (List Hit)
  t2 : Except (List Char) (List Hit)
  t3 : Except (List Char) (List Hit)
  t4 : Except (List Char) (List Hit)
  t5 : Except (List Char) (List Hit)
  t7 : Except (List Char) (List Hit)

/-- `_search_tier`: a successful search returns its hits, a raised error is
caught (`except Exception: ... return []`) and yields the empty hit list. -/
def searchTierResult : Except (List Char) (List Hit) → List Hit
  | Except.ok hits => hits
  | Except.error _ => []

/-- The per-tier hit lists in the order `search_company` gathers them:
the tasks are appended as Tier 1, Tier 2, Tier 3, Tier 4 (only when the
phonetic code is non-empty), Tier 5, Tier 7, and `asyncio.gather`
preserves task order. -/
def resultsList (raw_name : List Char) (resp : TierResponses) : List (List Char × List Hit) :=
  let clean_name := clean_text raw_name
  let phonetic_code := get_phonetic clean_name
  [(tier1Name, searchTierResult resp.t1),
   (tier2Name, searchTierResult resp.t2),
   (tier3Name, searchTierResult resp.t3)]
  ++ (if phonetic_code = [] then [] else [(tier4Name, searchTierResult resp.t4)])
  ++ [(tier5Name, searchTierResult resp.t5),
      (tier7Name, searchTierResult resp.t7)]

/-- `search_company`: aggregate the tier results, sort candidates by score
descending (stable), return the top candidate or the not-found result. -/
def search_company (raw_name : List Char) (resp : TierResponses) : MatchResult :=
  let sortedC := sortCandidates (aggregate (resultsList raw_name resp))
  match sortedC with
  | [] => ⟨raw_name, false, none, none, none, 0, 0⟩
  | best :: rest =>
    ⟨raw_name, true, some best.domain, best.name, some best.tier, best.score,
      (best :: rest).length⟩

/-! ## Spec-side definitions (used only to state claims against the code) -/

/-- The claim's consonant-to-digit class map, written as one table. -/
def soundexDigit (c : Char) : Char :=
  if (['B', 'F', 'P', 'V'] : List Char).contains c then '1'
  else if (['C', 'G', 'J', 'K', 'Q', 'S', 'X', 'Z'] : List Char).contains c then '2'
  else if (['D', 'T'] : List Char).contains c then '3'
  else if (['L'] : List Char).contains c then '4'
  else if (['M', 'N'] : List Char).contains c then '5'
  else if (['R'] : List Char).contains c then '6'
  else c

/-- Collapse every run of identical adjacent characters to one character
(the amended collapsing rule). -/
def collapseRuns : List Char → List Char
  | [] => []
  | [c] => [c]
  | a :: b :: rest =>
    if a = b then collapseRuns (b :: rest) else a :: collapseRuns (b :: rest)

/-- Collapse only runs of identical adjacent **digits** — the collapsing
rule exactly as claim C5 words it. -/
def collapseDigitRuns : List Char → List Char
  | [] => []
  | [c] => [c]
  | a :: b :: rest =>
    if a = b ∧ a.isDigit then collapseDigitRuns (b :: rest)
    else a :: collapseDigitRuns (b :: rest)

/-- Modelled from claim C5's words: normalize and uppercase, keep the
first character, delete vowels and Y from the remainder, map the consonant
classes to digits, collapse runs of identical adjacent **digits**, and
concatenate. -/
def phoneticSpecC5 (s : List Char) : List Char :=
  match upperStr (clean_text_basic s) with
  | [] => []
  | first :: rest =>
    first :: collapseDigitRuns ((removeVowels rest).map soundexDigit)

/-- The amended phonetic description: as `phoneticSpecC5` but collapsing
runs of identical adjacent characters whether or not they are digits. -/
def phoneticSpecAmended (s : List Char) : List Char :=
  match upperStr (clean_text_basic s) with
  | [] => []
  | first :: rest =>
    first :: collapseRuns ((removeVowels rest).map soundexDigit)

/-! ## Flattened view of the aggregation (for stating first-seen-wins) -/

/-- The `(tier, hit)` pairs of the tier result lists, in iteration order. -/
def flatHits (tiers : List (List Char × List Hit)) : List (List Char × Hit) :=
  tiers.flatMap (fun p => p.2.map (fun h => (p.1, h)))

/-- The aggregation loop over the flattened pair list. -/
def aggFlat (flat : List (List Char × Hit)) (acc : List Candidate) : List Candidate :=
  flat.foldl (fun a p => insertHit a p.1 p.2) acc

/-- The candidate `insertHit` records for a hit with (non-empty) domain `d`. -/
def mkCandidate (d : List Char) (p : List Char × Hit) : Candidate :=
  ⟨d, p.1, p.2.company_name_cleaned_ascii, hitScore p.1 p.2⟩

/-! ## Helper lemmas about the character model -/

theorem toNat_pyToLower (c : Char) :
    (pyToLower c).toNat = if 65 ≤ c.toNat ∧ c.toNat ≤ 90 then c.toNat + 32 else c.toNat := by
  unfold pyToLower
  split_ifs with h
  · obtain ⟨h1, h2⟩ := h
    rw [Char.ofNat, dif_pos (Or.inl (by omega))]
    rfl
  · rfl

theorem pyToLower_ascii (c : Char) (h : c.toNat < 128) : (pyToLower c).toNat < 128 := by
  rw [toNat_pyToLower]
  split_ifs <;> omega

theorem pyToLower_fix (c : Char) : pyToLower (pyToLower c) = pyToLower c := by
  by_cases h : 65 ≤ c.toNat ∧ c.toNat ≤ 90
  · have h1 : (pyToLower c).toNat = c.toNat + 32 := by rw [toNat_pyToLower, if_pos h]
    show (if 65 ≤ (pyToLower c).toNat ∧ (pyToLower c).toNat ≤ 90 then
        Char.ofNat ((pyToLower c).toNat + 32) else pyToLower c) = pyToLower c
    rw [if_neg (by omega)]
  · have h1 : pyToLower c = c := by unfold pyToLower; rw [if_neg h]
    rw [h1, h1]

theorem squeezeAux_collapseRuns (l : List Char) :
    ∀ a : Char, a :: squeezeAux (some a) l = collapseRuns (a :: l) := by
  induction l with
  | nil => intro a; rfl
  | cons b rest ih =>
    intro a
    by_cases hab : b = a
    · subst hab
      rw [collapseRuns, if_pos rfl, squeezeAux, if_pos rfl]
      exact ih b
    · rw [collapseRuns, if_neg (fun h => hab h.symm), squeezeAux,
        if_neg (by simpa using fun h => hab h)]
      rw [← ih b]

theorem squeezeLoop_eq_collapseRuns (l : List Char) : squeezeLoop l = collapseRuns l := by
  cases l with
  | nil => rfl
  | cons c rest =>
    rw [squeezeLoop, squeezeAux, if_neg (by simp)]
    exact squeezeAux_collapseRuns rest c

theorem subChain (c : Char) :
    subChar ['R'] '6'
      (subChar ['M', 'N'] '5'
        (subChar ['L'] '4'
          (subChar ['D', 'T'] '3'
            (subChar ['C', 'G', 'J', 'K', 'Q', 'S', 'X', 'Z'] '2'
              (subChar ['B', 'F', 'P', 'V'] '1' c))))) = soundexDigit c := by
  by_cases h1 : (['B', 'F', 'P', 'V'] : List Char).contains c = true
  · have hm : c = 'B' ∨ c = 'F' ∨ c = 'P' ∨ c = 'V' := by simpa using h1
    rcases hm with rfl | rfl | rfl | rfl <;> rfl
  by_cases h2 : (['C', 'G', 'J', 'K', 'Q', 'S', 'X', 'Z'] : List Char).contains c = true
  · have hm := by simpa using h2
    rcases hm with rfl | rfl | rfl | rfl | rfl | rfl | rfl | rfl <;> rfl
  by_cases h3 : (['D', 'T'] : List Char).contains c = true
  · have hm := by simpa using h3
    rcases hm with rfl | rfl <;> rfl
  by_cases h4 : (['L'] : List Char).contains c = true
  · have hm : c = 'L' := by simpa using h4
    subst hm; rfl
  by_cases h5 : (['M', 'N'] : List Char).contains c = true
  · have hm := by simpa using h5
    rcases hm with rfl | rfl <;> rfl
  by_cases h6 : (['R'] : List Char).contains c = true
  · have hm : c = 'R' := by simpa using h6
    subst hm; rfl
  · unfold subChar soundexDigit
    simp only [h1, h2, h3, h4, h5, h6, if_false, Bool.false_eq_true]

theorem phoneticRemainder_eq (rest : List Char) :
    phoneticRemainder rest = (removeVowels rest).map soundexDigit := by
  unfold phoneticRemainder subMap
  simp only [List.map_map]
  apply List.map_congr_left
  intro a _
  simpa only [Function.comp_apply] using subChain a

/-! ## Strip/head helper lemmas -/

theorem head?_dropWhile {p : Char → Bool} :
    ∀ (l : List Char) {c : Char}, (l.dropWhile p).head? = some c → p c = false := by
  intro l
  induction l with
  | nil => intro c h; simp [List.dropWhile] at h
  | cons a rest ih =>
    intro c h
    rw [List.dropWhile] at h
    cases hp : p a with
    | true => rw [hp] at h; exact ih h
    | false =>
      rw [hp] at h
      simp at h
      rw [← h]
      exact hp

theorem getLast?_append_right {l₁ l₂ : List Char} (h : l₂ ≠ []) :
    (l₁ ++ l₂).getLast? = l₂.getLast? := by
  induction l₁ with
  | nil => simp
  | cons a rest ih =>
    cases hr : rest ++ l₂ with
    | nil =>
      rcases List.append_eq_nil.mp hr with ⟨-, h2⟩
      exact absurd h2 h
    | cons b t =>
      rw [List.cons_append, hr, List.getLast?_cons_cons, ← hr, ih]

theorem getLast?_dropWhile {p : Char → Bool} (l : List Char)
    (h : l.dropWhile p ≠ []) : (l.dropWhile p).getLast? = l.getLast? := by
  conv_rhs => rw [← List.takeWhile_append_dropWhile p l]
  rw [getLast?_append_right h]

theorem mem_pyStrip {c : Char} {l : List Char} (h : c ∈ pyStrip l) : c ∈ l := by
  unfold pyStrip at h
  rw [List.mem_reverse] at h
  have h2 := (List.dropWhile_sublist pyIsSpace).subset h
  rw [List.mem_reverse] at h2
  exact (List.dropWhile_sublist pyIsSpace).subset h2

theorem pyStrip_head? {l : List Char} {c : Char} (h : (pyStrip l).head? = some c) :
    pyIsSpace c = false := by
  unfold pyStrip at h
  rw [List.head?_reverse] at h
  have hne : (((l.dropWhile pyIsSpace).reverse).dropWhile pyIsSpace) ≠ [] := by
    intro hnil; rw [hnil] at h; simp at h
  rw [getLast?_dropWhile _ hne, List.getLast?_reverse] at h
  exact head?_dropWhile _ h

theorem pyStrip_getLast? {l : List Char} {c : Char} (h : (pyStrip l).getLast? = some c) :
    pyIsSpace c = false := by
  unfold pyStrip at h
  rw [List.getLast?_reverse] at h
  exact head?_dropWhile _ h

/-! ## Range/prefix helper lemmas for the n-gram generator -/

theorem range'_getLast?_eq : ∀ (k a : Nat), (List.range' a (k + 1)).getLast? = some (a + k) := by
  intro k
  induction k with
  | zero => intro a; simp
  | succ k ih =>
    intro a
    rw [List.range'_succ, show List.range' (a + 1) (k + 1) = (a + 1) :: List.range' (a + 2) k
        from List.range'_succ (a + 1) k 1, List.getLast?_cons_cons,
      ← List.range'_succ (a + 1) k 1, ih]
    congr 1
    omega

theorem chain'_take_range' (t : List Char) :
    ∀ (k a : Nat), a + k ≤ t.length + 1 →
      List.Chain' (fun x y => x.length < y.length)
        ((List.range' a k).map (fun i => t.take i)) := by
  intro k
  induction k with
  | zero => intro a _; simp
  | succ k ih =>
    intro a ha
    rw [List.range'_succ]
    cases k with
    | zero => simp
    | succ k' =>
      rw [show List.range' (a + 1) (k' + 1) = (a + 1) :: List.range' (a + 2) k'
          from List.range'_succ (a + 1) k' 1]
      rw [List.map_cons, List.map_cons, List.chain'_cons]
      constructor
      · rw [List.length_take, List.length_take]
        omega
      · have hih := ih (a + 1) (by omega)
        rw [show List.range' (a + 1) (k' + 1) = (a + 1) :: List.range' (a + 2) k'
            from List.range'_succ (a + 1) k' 1, List.map_cons] at hih
        exact hih

theorem take_min_length (t : List Char) (n : Nat) : t.take (min t.length n) = t.take n := by
  rcases le_total t.length n with h | h
  · rw [min_eq_left h, List.take_length, List.take_of_length_le h]
  · rw [min_eq_right h]

/-! ## Aggregation helper lemmas -/

theorem aggFlat_nil (acc : List Candidate) : aggFlat [] acc = acc := rfl

theorem aggFlat_cons (p : List Char × Hit) (flat : List (List Char × Hit))
    (acc : List Candidate) : aggFlat (p :: flat) acc = aggFlat flat (insertHit acc p.1 p.2) := rfl

theorem aggFlat_append (x y : List (List Char × Hit)) (acc : List Candidate) :
    aggFlat (x ++ y) acc = aggFlat y (aggFlat x acc) :=
  List.foldl_append _ _ _ _

theorem aggregate_eq_aggFlat (tiers : List (List Char × List Hit)) :
    aggregate tiers = aggFlat (flatHits tiers) [] := by
  suffices h : ∀ (ts : List (List Char × List Hit)) (acc : List Candidate),
      ts.foldl (fun acc p => p.2.foldl (fun a h => insertHit a p.1 h) acc) acc
        = aggFlat (flatHits ts) acc by
    exact h tiers []
  intro ts
  induction ts with
  | nil => intro acc; rfl
  | cons p rest ih =>
    intro acc
    rw [List.foldl_cons, ih]
    unfold flatHits
    rw [List.flatMap_cons, aggFlat_append]
    congr 1
    unfold aggFlat
    rw [List.foldl_map]

theorem insertHit_nodom {acc : List Candidate} {t : List Char} {h : Hit}
    (hh : hitDomain h = none) : insertHit acc t h = acc := by
  unfold insertHit; rw [hh]

theorem insertHit_seen {acc : List Candidate} {t : List Char} {h : Hit} {d' : List Char}
    (hh : hitDomain h = some d') (hany : acc.any (fun c => c.domain == d') = true) :
    insertHit acc t h = acc := by
  unfold insertHit; rw [hh]; exact if_pos hany

theorem insertHit_new {acc : List Candidate} {t : List Char} {h : Hit} {d' : List Char}
    (hh : hitDomain h = some d') (hany : ¬ acc.any (fun c => c.domain == d') = true) :
    insertHit acc t h = acc ++ [⟨d', t, h.company_name_cleaned_ascii, hitScore t h⟩] := by
  unfold insertHit; rw [hh]; exact if_neg hany


/-- First-seen-wins, characterised per domain: the candidates whose domain
is `d` are exactly the one recorded for the first flattened `(tier, hit)`
pair whose (non-empty) domain is `d` — provided the accumulator does not
already contain `d`. -/
theorem aggFlat_filter (d : List Char) :
    ∀ (flat : List (List Char × Hit)) (acc : List Candidate),
      (aggFlat flat acc).filter (fun c => c.domain == d)
        = acc.filter (fun c => c.domain == d)
          ++ (if acc.any (fun c => c.domain == d) then []
              else
                match flat.find? (fun p => hitDomain p.2 == some d) with
                | none => []
                | some p => [mkCandidate d p]) := by
  intro flat
  induction flat with
  | nil =>
    intro acc
    simp [aggFlat_nil]
  | cons p rest ih =>
    intro acc
    rw [aggFlat_cons, ih]
    cases hh : hitDomain p.2 with
    | none =>
      rw [insertHit_nodom hh, List.find?_cons_of_neg _ (by simp [hh])]
    | some d' =>
      by_cases hbeq : d' = d
      · subst hbeq
        by_cases hany : acc.any (fun c => c.domain == d') = true
        · rw [insertHit_seen hh hany, if_pos hany, if_pos hany]
        · rw [insertHit_new hh hany]
          rw [if_pos (show ((acc ++ [(⟨d', p.1, p.2.company_name_cleaned_ascii,
              hitScore p.1 p.2⟩ : Candidate)]).any fun c => c.domain == d') = true by
            rw [List.any_append]; simp)]
          rw [if_neg hany, List.find?_cons_of_pos _ (by simp [hh]), List.filter_append]
          simp [mkCandidate]
      · rw [List.find?_cons_of_neg _ (by simp [hh, hbeq])]
        by_cases hany' : acc.any (fun c => c.domain == d') = true
        · rw [insertHit_seen hh hany']
        · rw [insertHit_new hh hany']
          have hany2 : ((acc ++ [(⟨d', p.1, p.2.company_name_cleaned_ascii,
              hitScore p.1 p.2⟩ : Candidate)]).any fun c => c.domain == d)
              = (acc.any fun c => c.domain == d) := by
            rw [List.any_append]; simp [hbeq]
          rw [hany2, List.filter_append]
          have hnil : ([(⟨d', p.1, p.2.company_name_cleaned_ascii,
              hitScore p.1 p.2⟩ : Candidate)]).filter (fun c => c.domain == d) = [] := by
            simp [hbeq]
          rw [hnil]
          simp

/-! ## Score bound helper lemmas -/

theorem tierBaseScore_nonneg (t : List Char) : 0 ≤ tierBaseScore t := by
  unfold tierBaseScore
  split_ifs <;> norm_num

theorem tierBaseScore_int (t : List Char) : ∃ z : ℤ, tierBaseScore t = (z : ℚ) := by
  unfold tierBaseScore
  split_ifs
  exacts [⟨95, by norm_num⟩, ⟨90, by norm_num⟩, ⟨88, by norm_num⟩, ⟨80, by norm_num⟩,
    ⟨75, by norm_num⟩, ⟨70, by norm_num⟩, ⟨0, by norm_num⟩]

theorem sizeBoost_nonneg (h : Hit) : 0 ≤ sizeBoost h := by
  unfold sizeBoost
  dsimp only
  split_ifs <;> norm_num

theorem sizeBoost_int (h : Hit) : ∃ z : ℤ, sizeBoost h = (z : ℚ) := by
  unfold sizeBoost
  dsimp only
  split_ifs
  exacts [⟨10, by norm_num⟩, ⟨5, by norm_num⟩, ⟨0, by norm_num⟩]

theorem hitScore_eq (t : List Char) (h : Hit) :
    hitScore t h
      = min (tierBaseScore t + (h.metadata_quality_score.getD 0 : ℚ) / 2 + sizeBoost h) 100 :=
  rfl

theorem hitScore_le_100 (t : List Char) (h : Hit) : hitScore t h ≤ 100 := by
  rw [hitScore_eq]
  exact min_le_right _ _

theorem hitScore_nonneg (t : List Char) (h : Hit) : 0 ≤ hitScore t h := by
  rw [hitScore_eq]
  refine le_min ?_ (by norm_num)
  have h1 := tierBaseScore_nonneg t
  have h2 := sizeBoost_nonneg h
  have h3 : (0 : ℚ) ≤ (h.metadata_quality_score.getD 0 : ℚ) / 2 := by positivity
  linarith

theorem le_hitScore (t : List Char) (h : Hit) (hb : 70 ≤ tierBaseScore t) :
    70 ≤ hitScore t h := by
  rw [hitScore_eq]
  refine le_min ?_ (by norm_num)
  have h2 := sizeBoost_nonneg h
  have h3 : (0 : ℚ) ≤ (h.metadata_quality_score.getD 0 : ℚ) / 2 := by positivity
  linarith

theorem hitScore_half_int (t : List Char) (h : Hit) :
    ∃ z : ℤ, hitScore t h * 2 = (z : ℚ) := by
  obtain ⟨zb, hzb⟩ := tierBaseScore_int t
  obtain ⟨zs, hzs⟩ := sizeBoost_int h
  rw [hitScore_eq]
  rcases le_total (tierBaseScore t + (h.metadata_quality_score.getD 0 : ℚ) / 2 + sizeBoost h)
      100 with hle | hle
  · refine ⟨2 * zb + (h.metadata_quality_score.getD 0 : ℤ) + 2 * zs, ?_⟩
    rw [min_eq_left hle, hzb, hzs]
    push_cast
    ring
  · refine ⟨200, ?_⟩
    rw [min_eq_right hle]
    norm_num

/-! ## Sorting and membership helper lemmas -/

theorem mem_insertDesc {c x : Candidate} :
    ∀ {l : List Candidate}, c ∈ insertDesc x l → c = x ∨ c ∈ l := by
  intro l
  induction l with
  | nil => intro h; simpa [insertDesc] using h
  | cons a rest ih =>
    intro h
    unfold insertDesc at h
    split_ifs at h with hgt
    · rcases List.mem_cons.mp h with h1 | h1
      · exact Or.inl h1
      · exact Or.inr h1
    · rcases List.mem_cons.mp h with h1 | h1
      · exact Or.inr (List.mem_cons.mpr (Or.inl h1))
      · rcases ih h1 with h2 | h2
        · exact Or.inl h2
        · exact Or.inr (List.mem_cons.mpr (Or.inr h2))

theorem mem_sortCandidates {c : Candidate} {l : List Candidate}
    (h : c ∈ sortCandidates l) : c ∈ l := by
  suffices hs : ∀ (ls : List Candidate) (acc : List Candidate),
      c ∈ ls.foldl (fun acc x => insertDesc x acc) acc → c ∈ acc ∨ c ∈ ls by
    rcases hs l [] h with h1 | h1
    · simp at h1
    · exact h1
  intro ls
  induction ls with
  | nil => intro acc hc; exact Or.inl hc
  | cons a rest ih =>
    intro acc hc
    rw [List.foldl_cons] at hc
    rcases ih _ hc with h1 | h1
    · rcases mem_insertDesc h1 with h2 | h2
      · exact Or.inr (List.mem_cons.mpr (Or.inl h2))
      · exact Or.inl h2
    · exact Or.inr (List.mem_cons.mpr (Or.inr h1))

theorem aggFlat_forall {P : List Char → Prop} {Q : Candidate → Prop}
    (hQ : ∀ (t : List Char) (h : Hit) (d' : List Char), P t →
      Q ⟨d', t, h.company_name_cleaned_ascii, hitScore t h⟩) :
    ∀ (flat : List (List Char × Hit)) (acc : List Candidate),
      (∀ p ∈ flat, P p.1) → (∀ c ∈ acc, Q c) → ∀ c ∈ aggFlat flat acc, Q c := by
  intro flat
  induction flat with
  | nil => intro acc _ hacc c hc; exact hacc c hc
  | cons p rest ih =>
    intro acc hp hacc c hc
    rw [aggFlat_cons] at hc
    refine ih _ (fun q hq => hp q (List.mem_cons.mpr (Or.inr hq))) ?_ c hc
    intro c' hc'
    cases hh : hitDomain p.2 with
    | none =>
      rw [insertHit_nodom hh] at hc'
      exact hacc c' hc'
    | some d' =>
      by_cases hany : acc.any (fun c => c.domain == d') = true
      · rw [insertHit_seen hh hany] at hc'
        exact hacc c' hc'
      · rw [insertHit_new hh hany] at hc'
        rcases List.mem_append.mp hc' with h1 | h1
        · exact hacc c' h1
        · rcases List.mem_singleton.mp h1 with rfl
          exact hQ p.1 p.2 d' (hp p (List.mem_cons.mpr (Or.inl rfl)))

/-! ## Tier table facts -/

theorem tierBaseScore_t1 : tierBaseScore tier1Name = 95 := rfl

theorem tierBaseScore_t2 : tierBaseScore tier2Name = 90 := rfl

theorem tierBaseScore_t3 : tierBaseScore tier3Name = 80 := rfl

theorem tierBaseScore_t4 : tierBaseScore tier4Name = 75 := rfl

theorem tierBaseScore_t5 : tierBaseScore tier5Name = 70 := rfl

theorem tierBaseScore_t7 : tierBaseScore tier7Name = 88 := rfl

theorem resultsList_tierBase (raw_name : List Char) (resp : TierResponses) :
    ∀ p ∈ resultsList raw_name resp, 70 ≤ tierBaseScore p.1 := by
  intro p hp
  unfold resultsList at hp
  by_cases hph : get_phonetic (clean_text raw_name) = [] <;>
    simp only [hph, if_pos, if_neg, if_true, if_false] at hp <;>
    simp only [List.mem_append, List.mem_cons, List.mem_singleton, List.not_mem_nil,
      or_false, false_or] at hp
  · simp only [or_assoc] at hp
    rcases hp with rfl | rfl | rfl | rfl | rfl <;>
      simp only [tierBaseScore_t1, tierBaseScore_t2, tierBaseScore_t3, tierBaseScore_t5,
        tierBaseScore_t7] <;> norm_num
  · simp only [or_assoc] at hp
    rcases hp with rfl | rfl | rfl | rfl | rfl | rfl <;>
      simp only [tierBaseScore_t1, tierBaseScore_t2, tierBaseScore_t3, tierBaseScore_t4,
        tierBaseScore_t5, tierBaseScore_t7] <;> norm_num

theorem flatHits_tierBase {tiers : List (List Char × List Hit)}
    (h : ∀ q ∈ tiers, 70 ≤ tierBaseScore q.1) :
    ∀ p ∈ flatHits tiers, 70 ≤ tierBaseScore p.1 := by
  intro p hp
  unfold flatHits at hp
  rcases List.mem_flatMap.mp hp with ⟨q, hq, hpq⟩
  rcases List.mem_map.mp hpq with ⟨h', _, rfl⟩
  exact h q hq

theorem search_company_found_score (raw_name : List Char) (resp : TierResponses)
    (h : (search_company raw_name resp).match_found = true) :
    ∃ c ∈ aggregate (resultsList raw_name resp),
      (search_company raw_name resp).confidence = c.score := by
  unfold search_company at h ⊢
  cases hs : sortCandidates (aggregate (resultsList raw_name resp)) with
  | nil => rw [hs] at h; simp at h
  | cons best rest =>
    refine ⟨best, ?_, rfl⟩
    exact mem_sortCandidates (hs ▸ List.mem_cons_self best rest)

/-! ## Claim theorems -/

/-- C2: the index-build phonetic path and the query phonetic path are NOT
bit-for-bit identical: on the input " ® a" (space, U+00AE, space, 'a'),
`simple_phonetic` yields "A" while `get_phonetic` yields " " — the two
normalizers order strip and non-ASCII deletion differently.  This
evaluates both functions of the code at the failing input. -/
theorem C2_divergence :
    simple_phonetic [' ', Char.ofNat 174, ' ', 'a'] = ['A']
  ∧ get_phonetic [' ', Char.ofNat 174, ' ', 'a'] = [' ']
  ∧ simple_phonetic [' ', Char.ofNat 174, ' ', 'a']
      ≠ get_phonetic [' ', Char.ofNat 174, ' ', 'a'] := by
  refine ⟨by decide, by decide, by decide⟩

/-- C4 (amended): both quality scorers stay within [0,45] (the scores are
naturals, so 0 is automatic) and the pipeline scorer never exceeds the
data_preprocessing scorer; the +5 recency term fires on last-seen OR
last-verified only in the data_preprocessing scorer, so the fully
populated PDL record with only a verification date scores 45 there, while
the pipeline scorer needs the last-seen date to reach 45. -/
theorem C4_amended (row : Row) :
    calc_quality_score row ≤ 45
  ∧ calc_quality_score_pipeline row ≤ 45
  ∧ calc_quality_score_pipeline row ≤ calc_quality_score row
  ∧ calc_quality_score
      ⟨some (("PDL").toList), some 100, some (("tech").toList), some (("US").toList),
        some (("large").toList), none, some (("2024-01-01").toList)⟩ = 45
  ∧ calc_quality_score_pipeline
      ⟨some (("PDL").toList), some 100, some (("tech").toList), some (("US").toList),
        some (("large").toList), some (("2024-01-01").toList), none⟩ = 45 := by
  obtain ⟨src, emp, ind, cty, sz, ls, dv⟩ := row
  have hs : sourceBonus src ≤ 20 := by
    unfold sourceBonus
    dsimp only
    split_ifs <;> omega
  refine ⟨?_, ?_, ?_, by decide, by decide⟩ <;>
    · rcases emp with - | n <;> rcases ls with - | lsv <;> rcases dv with - | dvv <;>
        simp only [calc_quality_score, calc_quality_score_pipeline, Option.isSome_some,
          Option.isSome_none, Bool.or_self, Bool.or_true, Bool.true_or, Bool.false_or,
          Bool.or_false] <;>
        split_ifs <;> omega

/-- C4 (counterexample): a record with PDL source, positive employee
count, industry, country, size descriptor and a verification date (but no
last-seen date) scores 45 under `calc_quality_score` of
data_preprocessing.py but only 40 under the pipeline_s3_to_meili.py copy,
whose recency term ignores `DATE_LAST_VERIFIED` — refuting the claim that
the +5 recency term is granted when either timestamp is present. -/
theorem C4_counterexample :
    calc_quality_score
      ⟨some (("PDL").toList), some 100, some (("tech").toList), some (("US").toList),
        some (("large").toList), none, some (("2024-01-01").toList)⟩ = 45
  ∧ calc_quality_score_pipeline
      ⟨some (("PDL").toList), some 100, some (("tech").toList), some (("US").toList),
        some (("large").toList), none, some (("2024-01-01").toList)⟩ = 40
  ∧ (40 : Nat) ≠ 45 := by
  refine ⟨by decide, by decide, by decide⟩

/-- C9 (amended): for every string source the rank is in {1,2,3,4} with
the PDL/BOMBORA/HGDATA priority order on the uppercased tag, but a
non-string source value returns 99, outside the claimed set. -/
theorem C9_amended (s : List Char) :
    1 ≤ get_source_rank (some s)
  ∧ get_source_rank (some s) ≤ 4
  ∧ get_source_rank none = 99
  ∧ get_source_rank (some (("PDL").toList)) = 1
  ∧ get_source_rank (some (("bombora inc").toList)) = 2
  ∧ get_source_rank (some (("xHGDATAy").toList)) = 3
  ∧ get_source_rank (some (("other").toList)) = 4
  ∧ get_source_rank (some (("HGDATA BOMBORA PDL").toList)) = 1 := by
  refine ⟨?_, ?_, by decide, by decide, by decide, by decide, by decide, by decide⟩ <;>
    · unfold get_source_rank
      dsimp only
      split_ifs <;> omega

/-- C9 (counterexample): `get_source_rank` of a non-string source (a NaN
or None SOURCE value) is 99, which is none of 1, 2, 3, 4 — refuting "for
every source value, sourceRank(source) is an integer in {1,2,3,4}". -/
theorem C9_counterexample :
    get_source_rank none = 99
  ∧ (99 : Nat) ≠ 1 ∧ (99 : Nat) ≠ 2 ∧ (99 : Nat) ≠ 3 ∧ (99 : Nat) ≠ 4 := by
  refine ⟨by decide, by decide, by decide, by decide, by decide⟩

/-- C5 (amended): the phonetic encoder normalizes and uppercases, keeps
the first character, deletes vowels and Y from the remainder, maps the
consonant classes to digits, and collapses every run of identical
adjacent CHARACTERS (digits or not) to one — equivalently,
`simple_phonetic` coincides with the spec-shaped `phoneticSpecAmended`;
empty (and non-text) input yields the empty string. -/
theorem C5_amended (s : List Char) :
    simple_phonetic s = phoneticSpecAmended s
  ∧ simple_phonetic [] = []
  ∧ simple_phoneticOpt none = [] := by
  refine ⟨?_, rfl, rfl⟩
  by_cases hs : s = []
  · subst hs; rfl
  · unfold simple_phonetic phoneticSpecAmended
    rw [if_neg hs]
    cases h : upperStr (clean_text_basic s) with
    | nil => rfl
    | cons first rest =>
      show first :: squeezeLoop (phoneticRemainder rest)
          = first :: collapseRuns ((removeVowels rest).map soundexDigit)
      rw [squeezeLoop_eq_collapseRuns, phoneticRemainder_eq]

/-- C5 (counterexample): on "ahhb" the claim's digit-only collapsing rule
(`phoneticSpecC5`) yields "AHH1", but the code's squeeze loop collapses
the non-digit run "HH" too and yields "AH1". -/
theorem C5_counterexample :
    phoneticSpecC5 (("ahhb").toList) = ("AHH1").toList
  ∧ simple_phonetic (("ahhb").toList) = ("AH1").toList
  ∧ simple_phonetic (("ahhb").toList) ≠ phoneticSpecC5 (("ahhb").toList) := by
  refine ⟨by decide, by decide, by decide⟩

/-- C7 (amended): `clean_text_basic` (the data_preprocessing normalizer)
does return lowercased, trimmed, ASCII-only text, and maps a non-string
input to the empty string; the query-path `clean_text` is NOT covered by
this property because it trims before deleting non-ASCII characters (see
the counterexample). -/
theorem C7_amended (s : List Char) :
    ((clean_text_basic s).all
      (fun c => decide (c.toNat < 128) && (pyToLower c == c))) = true
  ∧ ((clean_text_basic s).head?.all (fun c => !pyIsSpace c)) = true
  ∧ ((clean_text_basic s).getLast?.all (fun c => !pyIsSpace c)) = true
  ∧ clean_text_basicOpt none = [] := by
  refine ⟨?_, ?_, ?_, rfl⟩
  · rw [List.all_eq_true]
    intro c hc
    unfold clean_text_basic at hc
    have hc' := mem_pyStrip hc
    unfold lowerStr at hc'
    rcases List.mem_map.mp hc' with ⟨c0, hc0, rfl⟩
    unfold asciiOnly at hc0
    rcases List.mem_filter.mp hc0 with ⟨-, hasc⟩
    have hlt : c0.toNat < 128 := by simpa using hasc
    simp [pyToLower_fix, pyToLower_ascii c0 hlt]
  · cases hh : (clean_text_basic s).head? with
    | none => rfl
    | some c =>
      have hns : pyIsSpace c = false := pyStrip_head? (l := lowerStr (asciiOnly s)) hh
      simp [Option.all_some, hns]
  · cases hh : (clean_text_basic s).getLast? with
    | none => rfl
    | some c =>
      have hns : pyIsSpace c = false := pyStrip_getLast? (l := lowerStr (asciiOnly s)) hh
      simp [Option.all_some, hns]

/-- C7 (counterexample): on " ® a" the query-path normalizer `clean_text`
returns " a", which still starts with whitespace — the claimed output
(lowercased, trimmed, non-ASCII deleted, i.e. `clean_text_basic`'s "a")
is not what `clean_text` produces. -/
theorem C7_counterexample :
    clean_text [' ', Char.ofNat 174, ' ', 'a'] = [' ', 'a']
  ∧ pyIsSpace ' ' = true
  ∧ clean_text_basic [' ', Char.ofNat 174, ' ', 'a'] = ['a']
  ∧ clean_text [' ', Char.ofNat 174, ' ', 'a']
      ≠ clean_text_basic [' ', Char.ofNat 174, ' ', 'a'] := by
  refine ⟨by decide, by decide, by decide, by decide⟩

/-- C6 (amended): for text whose normalized length is at least 3,
`get_ngrams text 3 15` is a strictly length-increasing sequence of
prefixes of the normalized text, starting at the length-3 prefix, whose
last element is the normalized text truncated at 15; but an EMPTY (or
non-text) input yields the empty sequence, not a singleton (a non-empty
text normalizing below length 3 does yield the singleton). -/
theorem C6_amended (s : List Char) (h : 3 ≤ (clean_text_basic s).length) :
    List.Chain' (fun a b => a.length < b.length) (get_ngrams s 3 15)
  ∧ ((get_ngrams s 3 15).all (fun g => (clean_text_basic s).take g.length == g)) = true
  ∧ (get_ngrams s 3 15).head? = some ((clean_text_basic s).take 3)
  ∧ (get_ngrams s 3 15).getLast? = some ((clean_text_basic s).take 15)
  ∧ get_ngrams [] 3 15 = []
  ∧ get_ngramsOpt none 3 15 = []
  ∧ (∀ u : List Char, u ≠ [] → (clean_text_basic u).length < 3 →
      get_ngrams u 3 15 = [clean_text_basic u]) := by
  have hs : s ≠ [] := by
    intro h0
    rw [h0] at h
    exact absurd h (by decide)
  have hng : get_ngrams s 3 15
      = (List.range' 3 (min ((clean_text_basic s).length + 1) 16 - 3)).map
          (fun i => (clean_text_basic s).take i) := by
    unfold get_ngrams
    rw [if_neg hs]
    dsimp only
    rw [if_neg (by omega)]
  obtain ⟨k', hk'⟩ : ∃ k', min ((clean_text_basic s).length + 1) 16 - 3 = k' + 1 :=
    ⟨min ((clean_text_basic s).length + 1) 16 - 4, by omega⟩
  refine ⟨?_, ?_, ?_, ?_, rfl, rfl, ?_⟩
  · rw [hng]
    exact chain'_take_range' (clean_text_basic s) _ 3 (by omega)
  · rw [hng, List.all_eq_true]
    intro g hg
    rcases List.mem_map.mp hg with ⟨i, -, rfl⟩
    rw [beq_iff_eq, List.length_take]
    rcases le_total i (clean_text_basic s).length with hle | hle
    · rw [min_eq_left hle]
    · rw [min_eq_right hle, List.take_length, List.take_of_length_le hle]
  · rw [hng, hk', List.range'_succ, List.map_cons]
    rfl
  · rw [hng, List.getLast?_map, hk', range'_getLast?_eq]
    have h315 : 3 + k' = min (clean_text_basic s).length 15 := by omega
    rw [Option.map_some', h315, take_min_length]
  · intro u hu hlen
    unfold get_ngrams
    rw [if_neg hu]
    dsimp only
    rw [if_pos hlen]

/-- C6 (witness): the amended theorem applied at the concrete input
"microsoft" (normalized length 9 ≥ 3): its n-gram list ends at the
full normalized text truncated at 15. -/
theorem C6_witness :
    3 ≤ (clean_text_basic (("microsoft").toList)).length
  ∧ (get_ngrams (("microsoft").toList) 3 15).getLast?
      = some ((clean_text_basic (("microsoft").toList)).take 15) :=
  ⟨by decide, (C6_amended (("microsoft").toList) (by decide)).2.2.2.1⟩

/-- C6 (counterexample): the empty input returns the empty list, not the
single-element sequence [""] the claim requires for empty input. -/
theorem C6_counterexample :
    get_ngrams [] 3 15 = []
  ∧ get_ngramsOpt none 3 15 = []
  ∧ (([] : List (List Char)) ≠ [([] : List Char)]) := by
  refine ⟨by decide, by decide, by decide⟩

/-- C1 (amended): the candidate aggregator iterates the per-tier hit
lists in the order the tier tasks are gathered — Tier 1, 2, 3, 4 (when
the phonetic code is non-empty), 5, 7 (NOT the spec's 1, 2, 7, 3, 4, 5) —
and for every domain the first tier in THAT order to mention it provides
the domain's sole candidate, tier tag and confidence; every later hit for
an already-seen domain is discarded (so Tier 1 still beats Tier 3 for a
shared domain, but Tier 3 now beats Tier 7). -/
theorem C1_amended (raw_name : List Char) (resp : TierResponses) (d : List Char) :
    ((resultsList raw_name resp).map Prod.fst
      = [tier1Name, tier2Name, tier3Name]
        ++ (if get_phonetic (clean_text raw_name) = [] then [] else [tier4Name])
        ++ [tier5Name, tier7Name])
  ∧ ((aggregate (resultsList raw_name resp)).filter (fun c => c.domain == d)
      = match (flatHits (resultsList raw_name resp)).find?
            (fun p => hitDomain p.2 == some d) with
        | none => []
        | some p => [mkCandidate d p]) := by
  constructor
  · unfold resultsList
    dsimp only
    by_cases hph : get_phonetic (clean_text raw_name) = [] <;> simp [hph]
  · rw [aggregate_eq_aggFlat]
    have hchar := aggFlat_filter d (flatHits (resultsList raw_name resp)) []
    simpa using hchar

/-- C1 (counterexample): with empty hit lists except Tier 3 and Tier 7
both returning the same domain "x", the aggregator keeps the TIER 3 entry
(confidence 80) and discards Tier 7 — under the claim's order
1, 2, 7, 3, 4, 5 the Tier 7 entry (confidence 88) would have won. -/
theorem C1_counterexample :
    (search_company []
      ⟨Except.ok [], Except.ok [], Except.ok [⟨some ['x'], none, none, none⟩],
        Except.ok [], Except.ok [], Except.ok [⟨some ['x'], none, none, none⟩]⟩).tier
      = some tier3Name
  ∧ (search_company []
      ⟨Except.ok [], Except.ok [], Except.ok [⟨some ['x'], none, none, none⟩],
        Except.ok [], Except.ok [], Except.ok [⟨some ['x'], none, none, none⟩]⟩).confidence
      = 80
  ∧ tier3Name ≠ tier7Name := by
  refine ⟨rfl, ?_, by decide⟩
  show hitScore tier3Name ⟨some ['x'], none, none, none⟩ = 80
  rw [hitScore_eq, tierBaseScore_t3,
    show sizeBoost (⟨some ['x'], none, none, none⟩ : Hit) = 0 from rfl,
    show (⟨some ['x'], none, none, none⟩ : Hit).metadata_quality_score = none from rfl]
  norm_num [Option.getD_none, min_def]

/-- C3 (amended): for a newly seen candidate the confidence is exactly
`min (tierBase + quality/2 + sizeBoost) 100` computed in exact (true
division) arithmetic; it lies in [0, 100] and twice it is an integer —
i.e. it is a half-integer, NOT always an integer as claimed. -/
theorem C3_amended (tier : List Char) (h : Hit) :
    hitScore tier h
      = min (tierBaseScore tier + (h.metadata_quality_score.getD 0 : ℚ) / 2 + sizeBoost h) 100
  ∧ 0 ≤ hitScore tier h
  ∧ hitScore tier h ≤ 100
  ∧ ∃ z : ℤ, hitScore tier h * 2 = (z : ℚ) :=
  ⟨hitScore_eq tier h, hitScore_nonneg tier h, hitScore_le_100 tier h,
    hitScore_half_int tier h⟩

/-- C3 (counterexample): a Tier-1 hit with quality score 5 produces the
confidence 95 + 5/2 = 97.5, which is NOT an integer — Python's `/` is
true division, so the claim's "the resulting confidence is an integer"
fails for every odd quality score. -/
theorem C3_counterexample :
    (search_company []
      ⟨Except.ok [⟨some ['x'], none, none, some 5⟩], Except.ok [], Except.ok [],
        Except.ok [], Except.ok [], Except.ok []⟩).match_found = true
  ∧ (search_company []
      ⟨Except.ok [⟨some ['x'], none, none, some 5⟩], Except.ok [], Except.ok [],
        Except.ok [], Except.ok [], Except.ok []⟩).confidence = 195 / 2
  ∧ ¬ ∃ z : ℤ, (search_company []
      ⟨Except.ok [⟨some ['x'], none, none, some 5⟩], Except.ok [], Except.ok [],
        Except.ok [], Except.ok [], Except.ok []⟩).confidence = (z : ℚ) := by
  have hconf : (search_company []
      ⟨Except.ok [⟨some ['x'], none, none, some 5⟩], Except.ok [], Except.ok [],
        Except.ok [], Except.ok [], Except.ok []⟩).confidence = 195 / 2 := by
    show hitScore tier1Name ⟨some ['x'], none, none, some 5⟩ = 195 / 2
    rw [hitScore_eq, tierBaseScore_t1,
      show sizeBoost (⟨some ['x'], none, none, some 5⟩ : Hit) = 0 from rfl,
      show (⟨some ['x'], none, none, some 5⟩ : Hit).metadata_quality_score = some 5 from rfl]
    norm_num [Option.getD_some, min_def]
  refine ⟨rfl, hconf, ?_⟩
  rintro ⟨z, hz⟩
  rw [hconf, div_eq_iff (by norm_num : (2 : ℚ) ≠ 0)] at hz
  have hz' : (195 : ℤ) = z * 2 := by exact_mod_cast hz
  omega

/-- C8: a tier whose backend query raises an error is caught and treated
as the empty hit list, and replacing any single tier's raised error by an
empty result leaves the whole `search_company` output unchanged — a tier
failure never aborts the other tiers or the overall call. -/
theorem C8_tier_failure (raw_name : List Char)
    (t1 t2 t3 t4 t5 t7 : Except (List Char) (List Hit)) (e : List Char) :
    searchTierResult (Except.error e) = []
  ∧ search_company raw_name ⟨Except.error e, t2, t3, t4, t5, t7⟩
      = search_company raw_name ⟨Except.ok [], t2, t3, t4, t5, t7⟩
  ∧ search_company raw_name ⟨t1, Except.error e, t3, t4, t5, t7⟩
      = search_company raw_name ⟨t1, Except.ok [], t3, t4, t5, t7⟩
  ∧ search_company raw_name ⟨t1, t2, Except.error e, t4, t5, t7⟩
      = search_company raw_name ⟨t1, t2, Except.ok [], t4, t5, t7⟩
  ∧ search_company raw_name ⟨t1, t2, t3, Except.error e, t5, t7⟩
      = search_company raw_name ⟨t1, t2, t3, Except.ok [], t5, t7⟩
  ∧ search_company raw_name ⟨t1, t2, t3, t4, Except.error e, t7⟩
      = search_company raw_name ⟨t1, t2, t3, t4, Except.ok [], t7⟩
  ∧ search_company raw_name ⟨t1, t2, t3, t4, t5, Except.error e⟩
      = search_company raw_name ⟨t1, t2, t3, t4, t5, Except.ok []⟩ :=
  ⟨rfl, rfl, rfl, rfl, rfl, rfl, rfl⟩

/-- C10: whenever `search_company` reports a match, the reported
confidence lies between 70 and 100: every tier base score is at least 70,
the quality and size boosts are non-negative, and `min(score, 100)` caps
the result. -/
theorem C10_confidence (raw_name : List Char) (resp : TierResponses)
    (h : (search_company raw_name resp).match_found = true) :
    70 ≤ (search_company raw_name resp).confidence
  ∧ (search_company raw_name resp).confidence ≤ 100 := by
  obtain ⟨c, hc, hconf⟩ := search_company_found_score raw_name resp h
  have hall : ∀ c' ∈ aggregate (resultsList raw_name resp),
      70 ≤ c'.score ∧ c'.score ≤ 100 := by
    rw [aggregate_eq_aggFlat]
    exact @aggFlat_forall (fun t => 70 ≤ tierBaseScore t)
      (fun c' => 70 ≤ c'.score ∧ c'.score ≤ 100)
      (fun t h' d' hP => ⟨le_hitScore t h' hP, hitScore_le_100 t h'⟩)
      (flatHits (resultsList raw_name resp)) []
      (flatHits_tierBase (resultsList_tierBase raw_name resp))
      (by intro c' hc'; simp at hc')
  rw [hconf]
  exact hall c hc

/-- C10 (witness): the bound theorem applied at a concrete call — one
Tier-1 hit with no quality or size data — whose match is found with
confidence 95 ∈ [70, 100]. -/
theorem C10_witness :
    (search_company []
      ⟨Except.ok [⟨some ['x'], none, none, none⟩], Except.ok [], Except.ok [],
        Except.ok [], Except.ok [], Except.ok []⟩).match_found = true
  ∧ 70 ≤ (search_company []
      ⟨Except.ok [⟨some ['x'], none, none, none⟩], Except.ok [], Except.ok [],
        Except.ok [], Except.ok [], Except.ok []⟩).confidence
  ∧ (search_company []
      ⟨Except.ok [⟨some ['x'], none, none, none⟩], Except.ok [], Except.ok [],
        Except.ok [], Except.ok [], Except.ok []⟩).confidence ≤ 100 :=
  ⟨rfl,
    (C10_confidence []
      ⟨Except.ok [⟨some ['x'], none, none, none⟩], Except.ok [], Except.ok [],
        Except.ok [], Except.ok [], Except.ok []⟩ rfl).1,
    (C10_confidence []
      ⟨Except.ok [⟨some ['x'], none, none, none⟩], Except.ok [], Except.ok [],
        Except.ok [], Except.ok [], Except.ok []⟩ rfl).2⟩
